import Mathlib

/-!
Shallow embedding of `crates/test-case-macros/src/lib.rs` of the
`test-case` procedural-macro crate, together with proofs of the
specification's claims about its expansion pipeline.

Modelling conventions:
* `syn::Attribute` becomes `Attr`: a path (list of identifier segments),
  the raw argument tokens (an opaque string), and a source span (a `Nat`
  identifier; spans only ever flow through the pipeline, they are never
  inspected).
* `syn::ItemFn` becomes `ItemFn`: its attribute list, its signature
  (of which only the identifier matters to this crate) and an opaque body.
* The external crate `test-case-core` (the types `TestCase`, `TestMatrix`,
  their parsers, and `TestCase::render`) is not part of this repository
  slice; the parsers and the renderer are taken as explicit function
  parameters, and `TestMatrix.cases` is modelled from the spec (see below).
* `proc_macro2::Span::call_site()` becomes the fixed span `spanCallSite`.
* The `quote!` output of `render_test_cases` is modelled structurally as a
  list of output items (`OutItem`): the emitted template function with its
  extra attribute, and the generated module with its attributes, name, glob
  re-import and rendered test functions.
-/

/-- A `syn` attribute: path segments, raw argument tokens, source span. -/
structure Attr where
  path : List String
  tokens : String
  span : Nat
deriving DecidableEq, Repr

/-- The part of `syn::Signature` this crate reads: the function identifier. -/
structure Sig where
  ident : String
deriving DecidableEq, Repr

/-- A `syn::ItemFn`: attributes, signature, opaque body. -/
structure ItemFn where
  attrs : List Attr
  sig : Sig
  block : String
deriving DecidableEq, Repr

/-- `test_case_core::TestCase`: one parsed case descriptor (ordered argument
expressions, optional expected result, optional description), each expression
kept as an opaque string. -/
structure TestCase where
  args : List String
  expected : Option String
  description : Option String
deriving DecidableEq, Repr

/-- `test_case_core::TestMatrix`: an ordered list of parameter slots, each an
ordered list of candidate expressions. -/
structure TestMatrix where
  slots : List (List String)
deriving DecidableEq, Repr

/-- A `syn::Error`: a message anchored at a source span. -/
structure SynError where
  span : Nat
  msg : String
deriving DecidableEq, Repr

/-- The opaque output of the external `TestCase::render` backend: one
generated test function. -/
structure RenderedTest where
  src : String
deriving DecidableEq, Repr

/-- The external `test-case-core` parsing boundary: `syn`'s
`parse_args::<TestCase>` and `parse_args::<TestMatrix>` applied to an
attribute's raw tokens (and `parse_macro_input!` applied to the primary
argument tokens). -/
structure ExternalParsers where
  parseTestCase : String → Except SynError TestCase
  parseTestMatrix : String → Except SynError TestMatrix

/-- `legal_test_case_names` from `expand_additional_test_case_macros`:
the primary spelling of the single-case directive and its legal aliases. -/
def legal_test_case_names : List (List String) :=
  [["test_case"], ["test_case", "test_case"], ["test_case", "case"], ["case"]]

/-- `legal_test_matrix_names` from `expand_additional_test_case_macros`:
the primary spelling of the matrix directive and its legal alias. -/
def legal_test_matrix_names : List (List String) :=
  [["test_matrix"], ["test_case", "test_matrix"]]

/-- `proc_macro2::Span::call_site()`. -/
def spanCallSite : Nat := 0

/-- Modelled from the spec: `TestMatrix::cases` lives in the external
`test-case-core` crate, which is not under `src/`. Spec §4.2 describes it as
the cartesian product of all parameter slots, ordered lexicographically over
slot index with the first slot varying slowest and the last varying fastest.
`cartesian` produces that product of a list of slots. -/
def cartesian : List (List String) → List (List String)
  | [] => [[]]
  | s :: rest => s.flatMap (fun v => (cartesian rest).map (fun args => v :: args))

/-- Modelled from the spec: `TestMatrix::cases` (external `test-case-core`)
turns the matrix into one `TestCase` per combination of candidate values, in
cartesian-product order. -/
def TestMatrix.cases (m : TestMatrix) : List TestCase :=
  (cartesian m.slots).map (fun args => { args := args, expected := none, description := none })

/-- `expand_test_matrix` (lib.rs lines 56-58): materialize the matrix's cases
and tag every one of them with the same span. -/
def expand_test_matrix (matrix : TestMatrix) (span : Nat) : List (TestCase × Nat) :=
  matrix.cases.map (fun c => (c, span))

/-- `Vec::swap_remove(i)`: replace the element at `i` with the last element
and pop the last element. Total model; on an out-of-range index with a
nonempty vector Rust would panic, which the pipeline never reaches. -/
def swapRemove (l : List α) (i : Nat) : List α :=
  match l.getLast? with
  | none => l
  | some last => (l.set i last).dropLast

/-- The attribute-scanning loop of `expand_additional_test_case_macros`
(lib.rs lines 74-100): walk the attribute list with its running index,
accumulating parsed cases (paired with the originating attribute's span) and
the indices of recognized attributes, failing fast on the first recognized
attribute whose arguments do not parse. -/
def processAttrs (P : ExternalParsers) :
    Nat → List Attr → List (TestCase × Nat) → List Nat →
    Except SynError (List (TestCase × Nat) × List Nat)
  | _, [], cases, idxs => .ok (cases, idxs)
  | idx, attr :: rest, cases, idxs =>
    if attr.path ∈ legal_test_case_names then
      match P.parseTestCase attr.tokens with
      | .ok tc => processAttrs P (idx + 1) rest (cases ++ [(tc, attr.span)]) (idxs ++ [idx])
      | .error err =>
          .error ⟨attr.span, "cannot parse test_case arguments: " ++ err.msg⟩
    else if attr.path ∈ legal_test_matrix_names then
      match P.parseTestMatrix attr.tokens with
      | .ok tm =>
          processAttrs P (idx + 1) rest (cases ++ expand_test_matrix tm attr.span) (idxs ++ [idx])
      | .error err =>
          .error ⟨attr.span, "cannot parse test_matrix arguments: " ++ err.msg⟩
    else
      processAttrs P (idx + 1) rest cases idxs

/-- `expand_additional_test_case_macros` (lib.rs lines 60-107): scan the
function's attributes, then remove the recognized ones by `swap_remove` in
reverse index order. Returns the aggregated cases together with the updated
function (the Rust code mutates `item` in place). -/
def expand_additional_test_case_macros (P : ExternalParsers) (item : ItemFn) :
    Except SynError (List (TestCase × Nat) × ItemFn) :=
  match processAttrs P 0 item.attrs [] [] with
  | .error e => .error e
  | .ok (cases, idxs) =>
      .ok (cases, { item with attrs := idxs.reverse.foldl swapRemove item.attrs })

/-- One item inside the generated module: the `use super::*;` re-import (with
its attributes) or one rendered test function. -/
inductive ModItem where
  | useSuperGlob (attrs : List Attr)
  | testFn (t : RenderedTest)
deriving DecidableEq, Repr

/-- One top-level item of the `quote!` output of `render_test_cases`: the
emitted template function (with the extra attributes the quote adds), or the
generated module. -/
inductive OutItem where
  | fn (extraAttrs : List Attr) (item : ItemFn)
  | genModule (attrs : List Attr) (name : String) (body : List ModItem)
deriving DecidableEq, Repr

/-- The `#[allow(unused_attributes)]` the quote puts on the emitted function. -/
def allowUnusedAttributes : Attr := ⟨["allow"], "unused_attributes", spanCallSite⟩

/-- The `#[cfg(test)]` the quote puts on the generated module. -/
def cfgTestAttr : Attr := ⟨["cfg"], "test", spanCallSite⟩

/-- The `#[allow(unused_imports)]` the quote puts on `use super::*;`. -/
def allowUnusedImports : Attr := ⟨["allow"], "unused_imports", spanCallSite⟩

/-- `render_test_cases` (lib.rs lines 109-141): render every case against the
template function, keep only the `allow` attributes on the template function,
and emit the function followed by a `#[cfg(test)]` module named after the
function containing `use super::*;` and the rendered cases. -/
def render_test_cases (render : TestCase → ItemFn → Nat → RenderedTest)
    (test_cases : List (TestCase × Nat)) (item : ItemFn) : List OutItem :=
  let rendered_test_cases := test_cases.map (fun p => render p.1 item p.2)
  let mod_name := item.sig.ident
  let item' : ItemFn :=
    { item with attrs := item.attrs.filter (fun a => decide (a.path = ["allow"])) }
  [OutItem.fn [allowUnusedAttributes] item',
   OutItem.genModule [cfgTestAttr] mod_name
     (ModItem.useSuperGlob [allowUnusedImports]
       :: rendered_test_cases.map ModItem.testFn)]

/-- The result of one attribute-macro invocation: either the expanded output
items or a single `compile_error!` produced from a `syn::Error`. -/
inductive MacroOutput where
  | ok (items : List OutItem)
  | compileError (e : SynError)
deriving DecidableEq, Repr

/-- The `test_case` entry point (lib.rs lines 26-38): parse the primary
arguments, seed the case list with the primary case at the call site span,
aggregate the additional recognized attributes, and render. -/
def test_case (P : ExternalParsers) (render : TestCase → ItemFn → Nat → RenderedTest)
    (args : String) (input : ItemFn) : MacroOutput :=
  match P.parseTestCase args with
  | .error e => .compileError e
  | .ok tc =>
    match expand_additional_test_case_macros P input with
    | .error err => .compileError err
    | .ok (cases, item) =>
        .ok (render_test_cases render ((tc, spanCallSite) :: cases) item)

/-- The `test_matrix` entry point (lib.rs lines 40-54): parse the primary
matrix, expand it at the call site span, aggregate the additional recognized
attributes, and render. -/
def test_matrix (P : ExternalParsers) (render : TestCase → ItemFn → Nat → RenderedTest)
    (args : String) (input : ItemFn) : MacroOutput :=
  match P.parseTestMatrix args with
  | .error e => .compileError e
  | .ok m =>
    match expand_additional_test_case_macros P input with
    | .error err => .compileError err
    | .ok (cases, item) =>
        .ok (render_test_cases render (expand_test_matrix m spanCallSite ++ cases) item)

/-! ## The cartesian product count and ordering (spec §4.2) -/

/-- The product of the candidate counts of a list of parameter slots. -/
def prodCounts : List (List String) → Nat
  | [] => 1
  | s :: rest => s.length * prodCounts rest

/-- The combination the spec's ordering contract assigns to case index `i`:
slot `j` picks candidate `(i / ∏ of later counts) % countⱼ`, so the first
slot varies slowest and the last varies fastest. -/
def mixedRadixPick : List (List String) → Nat → List String
  | [], _ => []
  | s :: rest, i => s.getD (i / prodCounts rest) "" :: mixedRadixPick rest (i % prodCounts rest)

theorem flatMap_length_const {α β : Type} (s : List α) (f : α → List β) (B : Nat)
    (hf : ∀ v, (f v).length = B) : (s.flatMap f).length = s.length * B := by
  induction s with
  | nil => simp
  | cons a s ih =>
    simp only [List.flatMap_cons, List.length_append, hf, ih, List.length_cons]
    rw [Nat.succ_mul, Nat.add_comm]

theorem getD_map_of_lt {α β : Type} (l : List α) (g : α → β) (n : Nat)
    (hn : n < l.length) (d : α) (e : β) : (l.map g).getD n e = g (l.getD n d) := by
  induction l generalizing n with
  | nil => simp at hn
  | cons a l ih =>
    cases n with
    | zero => rfl
    | succ n =>
      simp only [List.map_cons, List.getD_cons_succ]
      exact ih n (by simpa using hn)

theorem flatMap_getD_const {α β : Type} (s : List α) (f : α → List β) (B : Nat)
    (hB : 0 < B) (hf : ∀ v, (f v).length = B) (i : Nat)
    (hi : i < s.length * B) (d : α) (e : β) :
    (s.flatMap f).getD i e = (f (s.getD (i / B) d)).getD (i % B) e := by
  induction s generalizing i with
  | nil => simp at hi
  | cons a s ih =>
    rw [List.flatMap_cons]
    by_cases h : i < B
    · rw [List.getD_append _ _ _ _ (by rw [hf a]; exact h),
        Nat.div_eq_of_lt h, Nat.mod_eq_of_lt h, List.getD_cons_zero]
    · have hBi : B ≤ i := Nat.le_of_not_lt h
      rw [List.getD_append_right _ _ _ _ (by rw [hf a]; exact hBi), hf a]
      have hrep : i = (i - B) + B := (Nat.sub_add_cancel hBi).symm
      have hi' : i - B < s.length * B := by
        simp only [List.length_cons, Nat.succ_mul] at hi
        omega
      rw [hrep, Nat.add_div_right _ hB, Nat.add_mod_right, Nat.add_sub_cancel,
        List.getD_cons_succ]
      exact ih (i - B) hi'

theorem cartesian_length (ls : List (List String)) :
    (cartesian ls).length = prodCounts ls := by
  induction ls with
  | nil => rfl
  | cons s rest ih =>
    show (s.flatMap _).length = _
    rw [flatMap_length_const s _ (prodCounts rest) (fun v => by simp [ih])]
    rfl

theorem cartesian_getD (ls : List (List String)) (i : Nat) (hi : i < prodCounts ls) :
    (cartesian ls).getD i [] = mixedRadixPick ls i := by
  induction ls generalizing i with
  | nil =>
    have h0 : i = 0 := by simpa [prodCounts] using hi
    subst h0; rfl
  | cons s rest ih =>
    have hB : 0 < prodCounts rest := by
      rcases Nat.eq_zero_or_pos (prodCounts rest) with h | h
      · simp [prodCounts, h] at hi
      · exact h
    have hmod : i % prodCounts rest < prodCounts rest := Nat.mod_lt _ hB
    show (s.flatMap _).getD i [] = _
    rw [flatMap_getD_const s _ (prodCounts rest) hB
        (fun v => by simp [cartesian_length]) i (by simpa [prodCounts] using hi) "" []]
    rw [getD_map_of_lt _ _ _ (by rw [cartesian_length]; exact hmod) []]
    rw [ih _ hmod]
    rfl

/-- Default case used only as a `getD` fallback in statements. -/
def dummyCase : TestCase := ⟨[], none, none⟩

/-- Claim C1: for a matrix directive with parameter slots of candidate counts
k₁…kₙ, `expand_test_matrix` produces exactly ∏kᵢ case descriptors, and the
descriptor at index `i` picks, for each slot, the candidate given by the
mixed-radix decomposition of `i` — lexicographic order over slot index with
the first slot varying slowest and the last varying fastest. -/
theorem matrix_expansion_count_and_order (m : TestMatrix) (span : Nat) :
    (expand_test_matrix m span).length = prodCounts m.slots ∧
    ∀ i, i < prodCounts m.slots →
      ((expand_test_matrix m span).getD i (dummyCase, 0)).1.args = mixedRadixPick m.slots i := by
  have hlen : (expand_test_matrix m span).length = prodCounts m.slots := by
    simp [expand_test_matrix, TestMatrix.cases, cartesian_length]
  refine ⟨hlen, fun i hi => ?_⟩
  have hi1 : i < (cartesian m.slots).length := by rw [cartesian_length]; exact hi
  have hi2 : i < (TestMatrix.cases m).length := by
    simpa [TestMatrix.cases] using hi1
  show (((TestMatrix.cases m).map (fun c => (c, span))).getD i (dummyCase, 0)).1.args = _
  rw [getD_map_of_lt _ _ _ hi2 dummyCase]
  show (((cartesian m.slots).map
      (fun args => ({ args := args, expected := none, description := none } : TestCase))).getD
        i dummyCase).args = _
  rw [getD_map_of_lt _ _ _ hi1 []]
  rw [cartesian_getD m.slots i hi]

/-- Witness for C1 at the spec's own example matrix `a ∈ {1,2}`,
`b ∈ {10,20,30}`: six cases, and case 3 is `(2, 10)`. -/
theorem matrix_expansion_count_and_order_witness :
    (expand_test_matrix ⟨[["1", "2"], ["10", "20", "30"]]⟩ 7).length =
        prodCounts [["1", "2"], ["10", "20", "30"]] ∧
      ((expand_test_matrix ⟨[["1", "2"], ["10", "20", "30"]]⟩ 7).getD 3
          (dummyCase, 0)).1.args = mixedRadixPick [["1", "2"], ["10", "20", "30"]] 3 :=
  ⟨(matrix_expansion_count_and_order ⟨[["1", "2"], ["10", "20", "30"]]⟩ 7).1,
   (matrix_expansion_count_and_order ⟨[["1", "2"], ["10", "20", "30"]]⟩ 7).2 3 (by decide)⟩

/-- Claim C7: every case descriptor produced by expanding one matrix
directive is tagged with that directive's span — all cases from one matrix
directive share provenance. -/
theorem matrix_cases_share_span (m : TestMatrix) (span : Nat) :
    ∀ p ∈ expand_test_matrix m span, p.2 = span := by
  intro p hp
  simp only [expand_test_matrix, List.mem_map] at hp
  obtain ⟨c, -, rfl⟩ := hp
  rfl

/-- Witness for C7 at a concrete two-slot matrix. -/
theorem matrix_cases_share_span_witness :
    ((⟨["1", "2"], none, none⟩ : TestCase), 5).2 = 5 :=
  matrix_cases_share_span ⟨[["1"], ["2"]]⟩ 5 (⟨["1", "2"], none, none⟩, 5) (by decide)

/-! ## Structure of the rendered output (lib.rs lines 109-141) -/

/-- Whether an output item is a generated module. -/
def isGenModule : OutItem → Bool
  | .genModule _ _ _ => true
  | .fn _ _ => false

/-- A concrete external parser instance used to exercise the pipeline on
closed inputs: the whole token string becomes the single argument. -/
def trivialParsers : ExternalParsers :=
  { parseTestCase := fun s => .ok ⟨[s], none, none⟩,
    parseTestMatrix := fun s => .ok ⟨[[s]]⟩ }

/-- A concrete external renderer instance used to exercise the pipeline on
closed inputs. -/
def trivialRender : TestCase → ItemFn → Nat → RenderedTest :=
  fun tc item sp =>
    ⟨item.sig.ident ++ "_" ++ String.intercalate "_" tc.args ++ "_" ++ toString sp⟩

/-- Claim C8: `render_test_cases` emits exactly one generated module; it is
named identically to the template function and contains the
`use super::*;` re-export of the enclosing scope followed by all rendered
case functions. -/
theorem one_module_named_after_function (render : TestCase → ItemFn → Nat → RenderedTest)
    (test_cases : List (TestCase × Nat)) (item : ItemFn) :
    ((render_test_cases render test_cases item).filter isGenModule).length = 1 ∧
    OutItem.genModule [cfgTestAttr] item.sig.ident
        (ModItem.useSuperGlob [allowUnusedImports]
          :: (test_cases.map (fun p => render p.1 item p.2)).map ModItem.testFn)
      ∈ render_test_cases render test_cases item := by
  constructor
  · rfl
  · simp [render_test_cases]

/-- Claim C10: every generated module emitted by `render_test_cases` carries
the `#[cfg(test)]` attribute, so the case functions exist only in test
builds. -/
theorem generated_module_cfg_test (render : TestCase → ItemFn → Nat → RenderedTest)
    (test_cases : List (TestCase × Nat)) (item : ItemFn) :
    ∀ attrs name body,
      OutItem.genModule attrs name body ∈ render_test_cases render test_cases item →
        cfgTestAttr ∈ attrs := by
  intro attrs name body h
  simp only [render_test_cases, List.mem_cons, List.mem_singleton] at h
  rcases h with h | h | h
  · exact OutItem.noConfusion h
  · obtain ⟨rfl, -, -⟩ := OutItem.genModule.injEq .. ▸ h
    exact List.mem_singleton.mpr rfl
  · exact absurd h (List.not_mem_nil _)

/-- Witness for C10 at a concrete rendering. -/
theorem generated_module_cfg_test_witness : cfgTestAttr ∈ [cfgTestAttr] :=
  generated_module_cfg_test trivialRender [] ⟨[], ⟨"f"⟩, "b"⟩ [cfgTestAttr] "f"
    [ModItem.useSuperGlob [allowUnusedImports]] (by decide)

/-! ## Characterizing the aggregation loop (lib.rs lines 60-107) -/

/-- Whether an attribute's path is one of the recognized directive
spellings (single-case or matrix, primary or legacy alias). -/
def recognizedAttr (a : Attr) : Bool :=
  decide (a.path ∈ legal_test_case_names) || decide (a.path ∈ legal_test_matrix_names)

/-- Specification-side description (spec §4.3/§4.5) of what one attribute
contributes to the aggregated case list, stated per attribute so that the
claimed source order is the concatenation over the attribute list: a
recognized single-case directive contributes its parsed case at its own
span, a recognized matrix directive contributes its expansion at its own
span, anything else contributes nothing. The ordering claims compare the
loop `processAttrs` against this description. -/
def attrCases (P : ExternalParsers) (a : Attr) : List (TestCase × Nat) :=
  if a.path ∈ legal_test_case_names then
    match P.parseTestCase a.tokens with
    | .ok tc => [(tc, a.span)]
    | .error _ => []
  else if a.path ∈ legal_test_matrix_names then
    match P.parseTestMatrix a.tokens with
    | .ok m => expand_test_matrix m a.span
    | .error _ => []
  else []

/-- All directive content this attribute would be asked to parse does parse. -/
def attrParseOk (P : ExternalParsers) (a : Attr) : Prop :=
  (a.path ∈ legal_test_case_names → ∃ tc, P.parseTestCase a.tokens = .ok tc) ∧
  (a.path ∈ legal_test_matrix_names → ∃ m, P.parseTestMatrix a.tokens = .ok m)

/-- The attribute is a recognized directive whose content fails to parse
(for a single-case spelling, the case parser fails; for a matrix spelling,
the matrix parser fails). -/
def malformedAttr (P : ExternalParsers) (a : Attr) : Prop :=
  (a.path ∈ legal_test_case_names ∧ ∃ e, P.parseTestCase a.tokens = .error e) ∨
  (a.path ∉ legal_test_case_names ∧ a.path ∈ legal_test_matrix_names ∧
    ∃ e, P.parseTestMatrix a.tokens = .error e)

/-- The indices (starting at `k`) of the recognized attributes of a list. -/
def recIdxsFrom (k : Nat) : List Attr → List Nat
  | [] => []
  | a :: rest =>
    if recognizedAttr a then k :: recIdxsFrom (k + 1) rest else recIdxsFrom (k + 1) rest

theorem processAttrs_ok (P : ExternalParsers) (attrs : List Attr) :
    ∀ (idx : Nat) (cases : List (TestCase × Nat)) (idxs : List Nat)
      (cases' : List (TestCase × Nat)) (idxs' : List Nat),
      processAttrs P idx attrs cases idxs = .ok (cases', idxs') →
      cases' = cases ++ (attrs.map (attrCases P)).flatten ∧
      idxs' = idxs ++ recIdxsFrom idx attrs := by
  induction attrs with
  | nil =>
    intro idx cases idxs cases' idxs' h
    simp only [processAttrs] at h
    obtain ⟨rfl, rfl⟩ := Prod.mk.injEq .. ▸ Except.ok.injEq .. ▸ h
    simp [recIdxsFrom]
  | cons a rest ih =>
    intro idx cases idxs cases' idxs' h
    simp only [processAttrs] at h
    by_cases hc : a.path ∈ legal_test_case_names
    · rw [if_pos hc] at h
      cases hp : P.parseTestCase a.tokens with
      | ok tc =>
        rw [hp] at h
        obtain ⟨h1, h2⟩ := ih (idx + 1) _ _ _ _ h
        refine ⟨?_, ?_⟩
        · rw [h1]
          simp [attrCases, hc, hp]
        · rw [h2]
          simp [recIdxsFrom, recognizedAttr, hc]
      | error e =>
        rw [hp] at h
        exact absurd h (by simp)
    · rw [if_neg hc] at h
      by_cases hm : a.path ∈ legal_test_matrix_names
      · rw [if_pos hm] at h
        cases hp : P.parseTestMatrix a.tokens with
        | ok tm =>
          rw [hp] at h
          obtain ⟨h1, h2⟩ := ih (idx + 1) _ _ _ _ h
          refine ⟨?_, ?_⟩
          · rw [h1]
            simp [attrCases, hc, hm, hp]
          · rw [h2]
            simp [recIdxsFrom, recognizedAttr, hc, hm]
        | error e =>
          rw [hp] at h
          exact absurd h (by simp)
      · rw [if_neg hm] at h
        obtain ⟨h1, h2⟩ := ih (idx + 1) _ _ _ _ h
        refine ⟨?_, ?_⟩
        · rw [h1]
          simp [attrCases, hc, hm]
        · rw [h2]
          simp [recIdxsFrom, recognizedAttr, hc, hm]

theorem processAttrs_error_at_first_bad (P : ExternalParsers) (pre : List Attr)
    (bad : Attr) (post : List Attr) :
    ∀ (idx : Nat) (cases : List (TestCase × Nat)) (idxs : List Nat),
      (∀ a ∈ pre, attrParseOk P a) → malformedAttr P bad →
      ∃ msg, processAttrs P idx (pre ++ bad :: post) cases idxs = .error ⟨bad.span, msg⟩ := by
  induction pre with
  | nil =>
    intro idx cases idxs _ hbad
    simp only [List.nil_append, processAttrs]
    rcases hbad with ⟨hc, e, hpe⟩ | ⟨hc, hm, e, hpe⟩
    · rw [if_pos hc, hpe]
      exact ⟨_, rfl⟩
    · rw [if_neg hc, if_pos hm, hpe]
      exact ⟨_, rfl⟩
  | cons a pre ih =>
    intro idx cases idxs hpre hbad
    have ha : attrParseOk P a := hpre a (List.mem_cons_self a pre)
    have hpre' : ∀ b ∈ pre, attrParseOk P b := fun b hb => hpre b (List.mem_cons_of_mem a hb)
    simp only [List.cons_append, processAttrs]
    by_cases hc : a.path ∈ legal_test_case_names
    · obtain ⟨tc, hp⟩ := ha.1 hc
      rw [if_pos hc, hp]
      exact ih _ _ _ hpre' hbad
    · rw [if_neg hc]
      by_cases hm : a.path ∈ legal_test_matrix_names
      · obtain ⟨tm, hp⟩ := ha.2 hm
        rw [if_pos hm, hp]
        exact ih _ _ _ hpre' hbad
      · rw [if_neg hm]
        exact ih _ _ _ hpre' hbad

/-- Extract the rendered test function of one module item, if any. -/
def modItemTest : ModItem → Option RenderedTest
  | .testFn t => some t
  | .useSuperGlob _ => none

/-- The rendered test functions contained in one output item. -/
def outItemTests : OutItem → List RenderedTest
  | .genModule _ _ body => body.filterMap modItemTest
  | .fn _ _ => []

/-- All rendered test functions in a macro invocation's output, in emission
order; a compile error contains none. -/
def moduleTests : MacroOutput → List RenderedTest
  | .ok items => (items.map outItemTests).flatten
  | .compileError _ => []

theorem moduleTests_render (render : TestCase → ItemFn → Nat → RenderedTest)
    (tcs : List (TestCase × Nat)) (item : ItemFn) :
    moduleTests (.ok (render_test_cases render tcs item)) =
      tcs.map (fun p => render p.1 item p.2) := by
  simp only [moduleTests, render_test_cases, List.map_cons, List.map_nil, outItemTests,
    List.filterMap_cons, modItemTest, List.flatten]
  rw [List.filterMap_map]
  have : modItemTest ∘ ModItem.testFn = some := rfl
  rw [this]
  simp

/-- Claim C2: when aggregation succeeds, the aggregated case list is exactly
the per-attribute contributions concatenated in the source order of the
attribute list, and the rendered case functions of `test_case`'s output are
the primary directive's case first, then those aggregated cases in that
order. -/
theorem primary_case_first_then_source_order (P : ExternalParsers)
    (render : TestCase → ItemFn → Nat → RenderedTest) (args : String) (input : ItemFn)
    (tc : TestCase) (cases : List (TestCase × Nat)) (item' : ItemFn)
    (hargs : P.parseTestCase args = .ok tc)
    (hexp : expand_additional_test_case_macros P input = .ok (cases, item')) :
    cases = (input.attrs.map (attrCases P)).flatten ∧
    moduleTests (test_case P render args input) =
      ((tc, spanCallSite) :: (input.attrs.map (attrCases P)).flatten).map
        (fun p => render p.1 item' p.2) := by
  have hcases : cases = (input.attrs.map (attrCases P)).flatten := by
    simp only [expand_additional_test_case_macros] at hexp
    cases hp : processAttrs P 0 input.attrs [] [] with
    | error e => rw [hp] at hexp; exact absurd hexp (by simp)
    | ok r =>
      rw [hp] at hexp
      obtain ⟨h1, -⟩ := processAttrs_ok P input.attrs 0 [] [] r.1 r.2 hp
      have : r.1 = cases := by
        have := (Except.ok.injEq .. ▸ hexp)
        exact congrArg Prod.fst this
      rw [← this, h1, List.nil_append]
  refine ⟨hcases, ?_⟩
  have : test_case P render args input =
      .ok (render_test_cases render ((tc, spanCallSite) :: cases) item') := by
    simp only [test_case, hargs, hexp]
  rw [this, moduleTests_render, ← hcases]

/-- Witness for C2: a primary case plus one legacy-alias `case` attribute. -/
theorem primary_case_first_then_source_order_witness :
    [((⟨["9"], none, none⟩ : TestCase), 4)] =
      (((⟨[⟨["case"], "9", 4⟩], ⟨"foo"⟩, "b"⟩ : ItemFn).attrs.map
        (attrCases trivialParsers)).flatten) :=
  (primary_case_first_then_source_order trivialParsers trivialRender "a0"
    ⟨[⟨["case"], "9", 4⟩], ⟨"foo"⟩, "b"⟩ ⟨["a0"], none, none⟩
    [(⟨["9"], none, none⟩, 4)] ⟨[], ⟨"foo"⟩, "b"⟩ rfl rfl).1

/-- Claim C3: with a well-formed primary directive, the first recognized
attribute with malformed content aborts the whole expansion: the output is a
single compile error anchored at that attribute's span, and no output items
(in particular zero case functions) are emitted. -/
theorem first_malformed_directive_aborts (P : ExternalParsers)
    (render : TestCase → ItemFn → Nat → RenderedTest) (args : String) (input : ItemFn)
    (tc : TestCase) (pre : List Attr) (bad : Attr) (post : List Attr)
    (hargs : P.parseTestCase args = .ok tc)
    (hattrs : input.attrs = pre ++ bad :: post)
    (hpre : ∀ a ∈ pre, attrParseOk P a)
    (hbad : malformedAttr P bad) :
    (∃ msg, test_case P render args input = .compileError ⟨bad.span, msg⟩) ∧
    ∀ items, test_case P render args input ≠ .ok items := by
  obtain ⟨msg, hproc⟩ :=
    processAttrs_error_at_first_bad P pre bad post 0 [] [] hpre hbad
  have hout : test_case P render args input = .compileError ⟨bad.span, msg⟩ := by
    simp only [test_case, hargs, expand_additional_test_case_macros, hattrs, hproc]
  exact ⟨⟨msg, hout⟩, fun items h => by rw [hout] at h; exact MacroOutput.noConfusion h⟩

/-- Witness for C3: a malformed `test_case` attribute at span 11 after a
well-formed one; the failing parser rejects the token string "bad". -/
theorem first_malformed_directive_aborts_witness :
    (∃ msg,
      test_case
          ⟨fun s => if s = "bad" then .error ⟨99, "boom"⟩ else .ok ⟨[s], none, none⟩,
           fun s => .ok ⟨[[s]]⟩⟩
          trivialRender "a0" ⟨[⟨["case"], "g", 7⟩, ⟨["test_case"], "bad", 11⟩], ⟨"f"⟩, "b"⟩ =
        .compileError ⟨(⟨["test_case"], "bad", 11⟩ : Attr).span, msg⟩) ∧
    ∀ items,
      test_case
          ⟨fun s => if s = "bad" then .error ⟨99, "boom"⟩ else .ok ⟨[s], none, none⟩,
           fun s => .ok ⟨[[s]]⟩⟩
          trivialRender "a0" ⟨[⟨["case"], "g", 7⟩, ⟨["test_case"], "bad", 11⟩], ⟨"f"⟩, "b"⟩ ≠
        .ok items :=
  first_malformed_directive_aborts
    ⟨fun s => if s = "bad" then .error ⟨99, "boom"⟩ else .ok ⟨[s], none, none⟩,
     fun s => .ok ⟨[[s]]⟩⟩
    trivialRender "a0" ⟨[⟨["case"], "g", 7⟩, ⟨["test_case"], "bad", 11⟩], ⟨"f"⟩, "b"⟩
    ⟨["a0"], none, none⟩ [⟨["case"], "g", 7⟩] ⟨["test_case"], "bad", 11⟩ [] rfl rfl
    (by
      intro a ha
      simp only [List.mem_singleton] at ha
      subst ha
      exact ⟨fun _ => ⟨⟨["g"], none, none⟩, rfl⟩, fun h => absurd h (by decide)⟩)
    (Or.inl ⟨by decide, ⟨99, "boom"⟩, rfl⟩)

theorem matrix_name_not_case_name {p : List String}
    (h : p ∈ legal_test_matrix_names) : p ∉ legal_test_case_names := by
  simp only [legal_test_matrix_names, List.mem_cons, List.not_mem_nil, or_false] at h
  rcases h with rfl | rfl <;> decide

/-- Claim C6: a legacy alias spelling is treated exactly like its primary
spelling: at the head of the attribute list, the aggregation loop's result
depends only on which form (single-case or matrix) the path belongs to and on
the attribute's tokens and span, not on which spelling of the form was used —
the same parser runs and produces the same case descriptors. -/
theorem alias_spellings_parse_identically (P : ExternalParsers) (a b : Attr)
    (idx : Nat) (rest : List Attr) (cases : List (TestCase × Nat)) (idxs : List Nat)
    (ht : a.tokens = b.tokens) (hs : a.span = b.span)
    (h : (a.path ∈ legal_test_case_names ∧ b.path ∈ legal_test_case_names) ∨
         (a.path ∈ legal_test_matrix_names ∧ b.path ∈ legal_test_matrix_names)) :
    processAttrs P idx (a :: rest) cases idxs = processAttrs P idx (b :: rest) cases idxs := by
  rcases h with ⟨ha, hb⟩ | ⟨ha, hb⟩
  · simp only [processAttrs]
    rw [if_pos ha, if_pos hb, ht, hs]
  · simp only [processAttrs]
    rw [if_neg (matrix_name_not_case_name ha), if_neg (matrix_name_not_case_name hb),
      if_pos ha, if_pos hb, ht, hs]

/-- Witness for C6: the alias `case` and the primary spelling
`test_case::case` with the same tokens and span. -/
theorem alias_spellings_parse_identically_witness :
    processAttrs trivialParsers 0 [⟨["case"], "t", 3⟩] [] [] =
      processAttrs trivialParsers 0 [⟨["test_case", "case"], "t", 3⟩] [] [] :=
  alias_spellings_parse_identically trivialParsers ⟨["case"], "t", 3⟩
    ⟨["test_case", "case"], "t", 3⟩ 0 [] [] [] rfl rfl (Or.inl ⟨by decide, by decide⟩)

/-! ## The removal pass: `swap_remove` on decreasing indices (lib.rs 102-104) -/

/-- Keep the elements of `l` whose position (counting from `k`) satisfies `p`. -/
def filterIdxFrom {α : Type} (p : Nat → Bool) : Nat → List α → List α
  | _, [] => []
  | k, a :: l => if p k then a :: filterIdxFrom p (k + 1) l else filterIdxFrom p (k + 1) l

theorem filterIdxFrom_cons_pos {α : Type} {p : Nat → Bool} {k : Nat} (a : α) (l : List α)
    (h : p k = true) : filterIdxFrom p k (a :: l) = a :: filterIdxFrom p (k + 1) l := by
  simp [filterIdxFrom, h]

theorem filterIdxFrom_cons_neg {α : Type} {p : Nat → Bool} {k : Nat} (a : α) (l : List α)
    (h : p k = false) : filterIdxFrom p k (a :: l) = filterIdxFrom p (k + 1) l := by
  simp [filterIdxFrom, h]

theorem filterIdxFrom_congr {α : Type} (p q : Nat → Bool) :
    ∀ (l : List α) (k : Nat), (∀ j, k ≤ j → j < k + l.length → p j = q j) →
      filterIdxFrom p k l = filterIdxFrom q k l := by
  intro l
  induction l with
  | nil => intro k _; rfl
  | cons a l ih =>
    intro k h
    have hlen : (a :: l).length = l.length + 1 := List.length_cons a l
    have hk : p k = q k := h k (Nat.le_refl k) (by rw [hlen]; omega)
    simp only [filterIdxFrom]
    rw [hk, ih (k + 1) (fun j h1 h2 => h j (by omega) (by rw [hlen]; omega))]

theorem filterIdxFrom_append {α : Type} (p : Nat → Bool) :
    ∀ (l l' : List α) (k : Nat),
      filterIdxFrom p k (l ++ l') = filterIdxFrom p k l ++ filterIdxFrom p (k + l.length) l' := by
  intro l
  induction l with
  | nil => intro l' k; simp [filterIdxFrom]
  | cons a l ih =>
    intro l' k
    have harith : k + 1 + l.length = k + (a :: l).length := by
      rw [List.length_cons]; omega
    simp only [List.cons_append, filterIdxFrom, List.append_eq]
    rw [ih l' (k + 1), harith]
    by_cases h : p k
    · rw [if_pos h, if_pos h, List.cons_append]
    · rw [if_neg h, if_neg h]

theorem filterIdxFrom_all_true {α : Type} {p : Nat → Bool} :
    ∀ (l : List α) (k : Nat), (∀ j, k ≤ j → p j = true) → filterIdxFrom p k l = l := by
  intro l
  induction l with
  | nil => intro k _; rfl
  | cons a l ih =>
    intro k h
    simp only [filterIdxFrom]
    rw [if_pos (h k (Nat.le_refl k)), ih (k + 1) (fun j hj => h j (by omega))]

theorem swapRemove_cons {α : Type} (a : α) (t : List α) (i : Nat) (ht : t ≠ []) :
    swapRemove (a :: t) (i + 1) = a :: swapRemove t i := by
  obtain ⟨b, t', rfl⟩ : ∃ b t', t = b :: t' := by
    cases t with
    | nil => exact absurd rfl ht
    | cons b t' => exact ⟨b, t', rfl⟩
  simp only [swapRemove, List.getLast?_cons_cons]
  rw [List.getLast?_eq_getLast _ (by simp)]
  cases i with
  | zero => rfl
  | succ n =>
    simp only [List.set_cons_succ]
    rfl

theorem swapRemove_singleton {α : Type} (x : α) : swapRemove [x] 0 = ([] : List α) := rfl

theorem swapRemove_cons_zero {α : Type} (x b : α) (t : List α) :
    swapRemove (x :: b :: t) 0 = (b :: t).getLast (by simp) :: (b :: t).dropLast := by
  simp only [swapRemove, List.getLast?_cons_cons]
  rw [List.getLast?_eq_getLast _ (by simp)]
  rfl

theorem swapRemove_append_len {α : Type} :
    ∀ (p : List α) (x : α) (s : List α),
      swapRemove (p ++ x :: s) p.length = p ++ swapRemove (x :: s) 0 := by
  intro p
  induction p with
  | nil => intro x s; simp
  | cons a p ih =>
    intro x s
    show swapRemove (a :: (p ++ x :: s)) (p.length + 1) = a :: (p ++ swapRemove (x :: s) 0)
    rw [swapRemove_cons a _ _ (by simp), ih]

theorem foldl_swapRemove_perm {α : Type} :
    ∀ (js : List Nat) (l : List α), js.Pairwise (· > ·) → (∀ j ∈ js, j < l.length) →
      (js.foldl swapRemove l).Perm (filterIdxFrom (fun j => decide (j ∉ js)) 0 l) := by
  intro js
  induction js with
  | nil =>
    intro l _ _
    rw [List.foldl_nil, filterIdxFrom_all_true l 0 (fun j _ => by simp)]
  | cons i js ih =>
    intro l hpw hbd
    obtain ⟨hgt, hpw'⟩ := List.pairwise_cons.mp hpw
    have hi : i < l.length := hbd i (List.mem_cons_self i js)
    rw [List.foldl_cons]
    have hplen : (l.take i).length = i := by
      rw [List.length_take]; omega
    have hx : l = l.take i ++ l.drop i := (List.take_append_drop i l).symm
    rw [List.drop_eq_getElem_cons hi] at hx
    cases hs : l.drop (i + 1) with
    | nil =>
      rw [hs] at hx
      have hsw : swapRemove l i = l.take i := by
        have h1 : swapRemove l i = swapRemove (l.take i ++ [l[i]]) i :=
          congrArg (fun z => swapRemove z i) hx
        have h2 := swapRemove_append_len (l.take i) (l[i]) ([] : List α)
        rw [hplen] at h2
        rw [h1, h2, swapRemove_singleton, List.append_nil]
      rw [hsw]
      have htarget :
          filterIdxFrom (fun j => decide (j ∉ i :: js)) 0 l =
            filterIdxFrom (fun j => decide (j ∉ js)) 0 (l.take i) := by
        conv_lhs => rw [hx]
        rw [filterIdxFrom_append, Nat.zero_add, hplen]
        have h1 : filterIdxFrom (fun j => decide (j ∉ i :: js)) i [l[i]] = [] := by
          simp [filterIdxFrom]
        rw [h1, List.append_nil]
        exact filterIdxFrom_congr _ _ (l.take i) 0 (fun j _ hj => by
          rw [hplen] at hj
          apply decide_eq_decide.mpr
          simp only [List.mem_cons]
          constructor
          · intro hn hm; exact hn (Or.inr hm)
          · intro hn hm
            rcases hm with rfl | hm
            · omega
            · exact hn hm)
      rw [htarget]
      exact ih (l.take i) hpw' (fun j hj => by rw [hplen]; exact hgt j hj)
    | cons b t =>
      rw [hs] at hx
      have hsw : swapRemove l i =
          l.take i ++ (b :: t).getLast (by simp) :: (b :: t).dropLast := by
        have h1 : swapRemove l i = swapRemove (l.take i ++ l[i] :: b :: t) i :=
          congrArg (fun z => swapRemove z i) hx
        have h2 := swapRemove_append_len (l.take i) (l[i]) (b :: t)
        rw [hplen] at h2
        rw [h1, h2, swapRemove_cons_zero]
      rw [hsw]
      have hperm1 := ih (l.take i ++ (b :: t).getLast (by simp) :: (b :: t).dropLast) hpw'
        (fun j hj => by
          rw [List.length_append, hplen]
          have := hgt j hj
          omega)
      refine hperm1.trans ?_
      have hA : filterIdxFrom (fun j => decide (j ∉ js)) 0
            (l.take i ++ (b :: t).getLast (by simp) :: (b :: t).dropLast) =
          filterIdxFrom (fun j => decide (j ∉ js)) 0 (l.take i) ++
            ((b :: t).getLast (by simp) :: (b :: t).dropLast) := by
        rw [filterIdxFrom_append, Nat.zero_add, hplen]
        rw [filterIdxFrom_all_true _ i (fun j hj => by
          apply decide_eq_true
          intro hm
          have := hgt j hm
          omega)]
      have hT : filterIdxFrom (fun j => decide (j ∉ i :: js)) 0 l =
          filterIdxFrom (fun j => decide (j ∉ js)) 0 (l.take i) ++ (b :: t) := by
        conv_lhs => rw [hx]
        rw [filterIdxFrom_append, Nat.zero_add, hplen]
        have h1 : filterIdxFrom (fun j => decide (j ∉ i :: js)) i (l[i] :: b :: t) =
            filterIdxFrom (fun j => decide (j ∉ i :: js)) (i + 1) (b :: t) := by
          simp [filterIdxFrom]
        rw [h1, filterIdxFrom_all_true (b :: t) (i + 1) (fun j hj => by
          apply decide_eq_true
          simp only [List.mem_cons]
          intro hm
          rcases hm with rfl | hm
          · omega
          · have := hgt j hm
            omega)]
        congr 1
        exact filterIdxFrom_congr _ _ (l.take i) 0 (fun j _ hj => by
          rw [hplen] at hj
          apply decide_eq_decide.mpr
          simp only [List.mem_cons]
          constructor
          · intro hn hm; exact hn (Or.inr hm)
          · intro hn hm
            rcases hm with rfl | hm
            · omega
            · exact hn hm)
      rw [hA, hT]
      refine List.Perm.append_left _ ?_
      have hps := List.perm_append_singleton ((b :: t).getLast (by simp)) (b :: t).dropLast
      have hrec : (b :: t).dropLast ++ [(b :: t).getLast (by simp)] = b :: t :=
        List.dropLast_append_getLast (by simp)
      have hgoal : ((b :: t).dropLast ++ [(b :: t).getLast (by simp)]).Perm (b :: t) := by
        rw [hrec]
      exact hps.symm.trans hgoal

theorem recIdxsFrom_bounds :
    ∀ (l : List Attr) (k : Nat), ∀ j ∈ recIdxsFrom k l, k ≤ j ∧ j < k + l.length := by
  intro l
  induction l with
  | nil => intro k j hj; exact absurd hj (List.not_mem_nil j)
  | cons a l ih =>
    intro k j hj
    have hlen : (a :: l).length = l.length + 1 := List.length_cons a l
    simp only [recIdxsFrom] at hj
    by_cases h : recognizedAttr a
    · rw [if_pos h] at hj
      rcases List.mem_cons.mp hj with rfl | hj'
      · exact ⟨Nat.le_refl _, by rw [hlen]; omega⟩
      · obtain ⟨h1, h2⟩ := ih (k + 1) j hj'
        exact ⟨by omega, by rw [hlen]; omega⟩
    · rw [if_neg h] at hj
      obtain ⟨h1, h2⟩ := ih (k + 1) j hj
      exact ⟨by omega, by rw [hlen]; omega⟩

theorem recIdxsFrom_pairwise :
    ∀ (l : List Attr) (k : Nat), (recIdxsFrom k l).Pairwise (· < ·) := by
  intro l
  induction l with
  | nil => intro k; exact List.Pairwise.nil
  | cons a l ih =>
    intro k
    simp only [recIdxsFrom]
    by_cases h : recognizedAttr a
    · rw [if_pos h]
      refine List.pairwise_cons.mpr ⟨fun j hj => ?_, ih (k + 1)⟩
      have := (recIdxsFrom_bounds l (k + 1) j hj).1
      omega
    · rw [if_neg h]
      exact ih (k + 1)

theorem filterIdx_recIdxs :
    ∀ (l : List Attr) (k : Nat),
      filterIdxFrom (fun j => decide (j ∉ recIdxsFrom k l)) k l =
        l.filter (fun a => !recognizedAttr a) := by
  intro l
  induction l with
  | nil => intro k; rfl
  | cons a l ih =>
    intro k
    by_cases h : recognizedAttr a
    · have hrec : recIdxsFrom k (a :: l) = k :: recIdxsFrom (k + 1) l := by
        simp only [recIdxsFrom, if_pos h]
      rw [hrec, filterIdxFrom_cons_neg a l (by simp),
        List.filter_cons_of_neg (by simp [h]),
        filterIdxFrom_congr _ (fun j => decide (j ∉ recIdxsFrom (k + 1) l)) l (k + 1)
          (fun j h1 h2 => by
            apply decide_eq_decide.mpr
            simp only [List.mem_cons]
            constructor
            · intro hn hm; exact hn (Or.inr hm)
            · intro hn hm
              rcases hm with rfl | hm
              · omega
              · exact hn hm),
        ih (k + 1)]
    · have hrec : recIdxsFrom k (a :: l) = recIdxsFrom (k + 1) l := by
        simp only [recIdxsFrom, if_neg h]
      rw [hrec, filterIdxFrom_cons_pos a l (by
          apply decide_eq_true
          intro hm
          have := (recIdxsFrom_bounds l (k + 1) k hm).1
          omega),
        List.filter_cons_of_pos (by simp [h]),
        ih (k + 1)]

/-- The removal pass of `expand_additional_test_case_macros` leaves, up to
permutation (`swap_remove` reorders survivors), exactly the attributes whose
path is not a recognized directive spelling. -/
theorem expand_attrs_perm (P : ExternalParsers) (input : ItemFn)
    (cases : List (TestCase × Nat)) (item' : ItemFn)
    (h : expand_additional_test_case_macros P input = .ok (cases, item')) :
    item'.attrs.Perm (input.attrs.filter (fun a => !recognizedAttr a)) := by
  simp only [expand_additional_test_case_macros] at h
  cases hp : processAttrs P 0 input.attrs [] [] with
  | error e => rw [hp] at h; exact absurd h (by simp)
  | ok r =>
    rw [hp] at h
    obtain ⟨-, hidxs⟩ := processAttrs_ok P input.attrs 0 [] [] r.1 r.2 hp
    rw [List.nil_append] at hidxs
    have h' := Except.ok.inj h
    have hitem : item' =
        { input with attrs := r.2.reverse.foldl swapRemove input.attrs } :=
      (congrArg Prod.snd h').symm
    rw [hitem]
    show (r.2.reverse.foldl swapRemove input.attrs).Perm _
    rw [hidxs]
    have hpair : (recIdxsFrom 0 input.attrs).reverse.Pairwise (· > ·) :=
      List.pairwise_reverse.mpr (recIdxsFrom_pairwise input.attrs 0)
    have hbd : ∀ j ∈ (recIdxsFrom 0 input.attrs).reverse, j < input.attrs.length := by
      intro j hj
      have := (recIdxsFrom_bounds input.attrs 0 j (List.mem_reverse.mp hj)).2
      omega
    have hperm := foldl_swapRemove_perm (recIdxsFrom 0 input.attrs).reverse
      input.attrs hpair hbd
    refine hperm.trans ?_
    rw [filterIdxFrom_congr _ (fun j => decide (j ∉ recIdxsFrom 0 input.attrs))
      input.attrs 0 (fun j _ _ => by
        apply decide_eq_decide.mpr
        exact not_congr List.mem_reverse)]
    rw [filterIdx_recIdxs input.attrs 0]

/-- Claim C5: when aggregation succeeds, the updated function's attribute
list contains no attribute whose path matches a recognized spelling, and
every attribute whose path does not match a recognized spelling is still in
the list. -/
theorem recognized_directives_removed (P : ExternalParsers) (input : ItemFn)
    (cases : List (TestCase × Nat)) (item' : ItemFn)
    (h : expand_additional_test_case_macros P input = .ok (cases, item')) :
    (∀ a ∈ item'.attrs, recognizedAttr a = false) ∧
    (∀ a ∈ input.attrs, recognizedAttr a = false → a ∈ item'.attrs) := by
  have hperm := expand_attrs_perm P input cases item' h
  constructor
  · intro a ha
    have := (List.mem_filter.mp (hperm.mem_iff.mp ha)).2
    simpa using this
  · intro a ha hrec
    exact hperm.mem_iff.mpr (List.mem_filter.mpr ⟨ha, by simp [hrec]⟩)

/-- Witness for C5: a `case` directive plus an unrecognized `ignore`
attribute; the `ignore` attribute survives, and the conclusion instantiates
to its membership in the updated list. -/
theorem recognized_directives_removed_witness :
    (⟨["ignore"], "", 2⟩ : Attr) ∈ (⟨[⟨["ignore"], "", 2⟩], ⟨"f"⟩, "b"⟩ : ItemFn).attrs :=
  (recognized_directives_removed trivialParsers
      ⟨[⟨["case"], "t", 1⟩, ⟨["ignore"], "", 2⟩], ⟨"f"⟩, "b"⟩
      [(⟨["t"], none, none⟩, 1)] ⟨[⟨["ignore"], "", 2⟩], ⟨"f"⟩, "b"⟩ rfl).2
    ⟨["ignore"], "", 2⟩ (by decide) (by decide)

/-- The attribute list of the emitted template function in a macro output. -/
def emittedFnAttrs : MacroOutput → List Attr
  | .ok (OutItem.fn _ f :: _) => f.attrs
  | _ => []

/-- Claim C4 counterexample: an `ignore` attribute is not a recognized
directive form, expansion of the carrying function succeeds, yet the emitted
template function does not retain it — `render_test_cases` keeps only
`allow` attributes (lib.rs lines 119-125), dropping every other
non-directive annotation. -/
theorem retained_annotations_counterexample :
    ((⟨["ignore"], "", 5⟩ : Attr) ∈ (⟨[⟨["ignore"], "", 5⟩], ⟨"foo"⟩, "b"⟩ : ItemFn).attrs) ∧
    (⟨["ignore"], "", 5⟩ : Attr).path ∉ legal_test_case_names ∧
    (⟨["ignore"], "", 5⟩ : Attr).path ∉ legal_test_matrix_names ∧
    (∃ items, test_case trivialParsers trivialRender "x"
        ⟨[⟨["ignore"], "", 5⟩], ⟨"foo"⟩, "b"⟩ = .ok items) ∧
    (⟨["ignore"], "", 5⟩ : Attr) ∉ emittedFnAttrs
      (test_case trivialParsers trivialRender "x" ⟨[⟨["ignore"], "", 5⟩], ⟨"foo"⟩, "b"⟩) :=
  ⟨by decide, by decide, by decide, ⟨_, rfl⟩, by decide⟩

/-- Claim C4 (amended): the emitted template function retains, of its
original annotations, exactly those whose path is the single identifier
`allow` (up to the reordering `swap_remove` introduces); all other
annotations, recognized directives or not, are removed. -/
theorem template_retains_only_allow (P : ExternalParsers)
    (render : TestCase → ItemFn → Nat → RenderedTest) (args : String) (input : ItemFn)
    (tc : TestCase) (cases : List (TestCase × Nat)) (item' : ItemFn)
    (hargs : P.parseTestCase args = .ok tc)
    (hexp : expand_additional_test_case_macros P input = .ok (cases, item')) :
    (emittedFnAttrs (test_case P render args input)).Perm
      (input.attrs.filter (fun a => decide (a.path = ["allow"]))) := by
  have hout : test_case P render args input =
      .ok (render_test_cases render ((tc, spanCallSite) :: cases) item') := by
    simp only [test_case, hargs, hexp]
  rw [hout]
  show (item'.attrs.filter (fun a => decide (a.path = ["allow"]))).Perm _
  have hperm := (expand_attrs_perm P input cases item' hexp).filter
    (fun a => decide (a.path = ["allow"]))
  refine hperm.trans ?_
  have heq : input.attrs.filter
        (fun a => decide (a.path = ["allow"]) && !recognizedAttr a) =
      input.attrs.filter (fun a => decide (a.path = ["allow"])) := by
    apply List.filter_congr
    intro a _
    by_cases hall : a.path = ["allow"]
    · have hr : recognizedAttr a = false := by
        simp only [recognizedAttr, hall]
        decide
      simp [hall, hr]
    · simp [hall]
  have hfinal : (input.attrs.filter (fun a => !recognizedAttr a)).filter
        (fun a => decide (a.path = ["allow"])) =
      input.attrs.filter (fun a => decide (a.path = ["allow"])) := by
    rw [List.filter_filter]
    exact heq
  rw [hfinal]

/-- Witness for the amended C4: an `allow` attribute next to a `case`
directive; only the `allow` attribute survives on the emitted function. -/
theorem template_retains_only_allow_witness :
    (emittedFnAttrs (test_case trivialParsers trivialRender "x"
        ⟨[⟨["allow"], "dead_code", 3⟩, ⟨["case"], "t", 1⟩], ⟨"f"⟩, "b"⟩)).Perm
      ((⟨[⟨["allow"], "dead_code", 3⟩, ⟨["case"], "t", 1⟩], ⟨"f"⟩, "b"⟩ : ItemFn).attrs.filter
        (fun a => decide (a.path = ["allow"]))) :=
  template_retains_only_allow trivialParsers trivialRender "x"
    ⟨[⟨["allow"], "dead_code", 3⟩, ⟨["case"], "t", 1⟩], ⟨"f"⟩, "b"⟩
    ⟨["x"], none, none⟩ [(⟨["t"], none, none⟩, 1)]
    ⟨[⟨["allow"], "dead_code", 3⟩], ⟨"f"⟩, "b"⟩ rfl rfl

theorem processAttrs_no_recognized (P : ExternalParsers) (attrs : List Attr) :
    ∀ (idx : Nat) (cases : List (TestCase × Nat)) (idxs : List Nat),
      (∀ a ∈ attrs, recognizedAttr a = false) →
      processAttrs P idx attrs cases idxs = .ok (cases, idxs) := by
  induction attrs with
  | nil => intro idx cases idxs _; rfl
  | cons a rest ih =>
    intro idx cases idxs h
    have ha := h a (List.mem_cons_self a rest)
    have hc : a.path ∉ legal_test_case_names := by
      intro hm
      simp [recognizedAttr, hm] at ha
    have hmm : a.path ∉ legal_test_matrix_names := by
      intro hm
      simp [recognizedAttr, hm] at ha
    simp only [processAttrs, if_neg hc, if_neg hmm]
    exact ih (idx + 1) cases idxs (fun b hb => h b (List.mem_cons_of_mem a hb))

/-- Claim C9: the expansion is a pure function of its input, so identical
inputs give identical outputs; for a function whose attribute list carries
no recognized directive, `test_case` produces exactly the rendering of the
single primary case, and the single rendered case function (hence its name)
is `render tc input spanCallSite`, fully determined by the input. -/
theorem single_case_deterministic (P : ExternalParsers)
    (render : TestCase → ItemFn → Nat → RenderedTest) (args : String) (input : ItemFn)
    (tc : TestCase)
    (hargs : P.parseTestCase args = .ok tc)
    (hno : ∀ a ∈ input.attrs, recognizedAttr a = false) :
    test_case P render args input =
      .ok (render_test_cases render [(tc, spanCallSite)] input) ∧
    moduleTests (test_case P render args input) = [render tc input spanCallSite] := by
  have hexp : expand_additional_test_case_macros P input = .ok ([], input) := by
    simp only [expand_additional_test_case_macros,
      processAttrs_no_recognized P input.attrs 0 [] [] hno]
    rfl
  have hout : test_case P render args input =
      .ok (render_test_cases render [(tc, spanCallSite)] input) := by
    simp only [test_case, hargs, hexp]
  refine ⟨hout, ?_⟩
  rw [hout, moduleTests_render]
  rfl

/-- Witness for C9: one primary case on a function with only an
unrecognized attribute. -/
theorem single_case_deterministic_witness :
    test_case trivialParsers trivialRender "a" ⟨[⟨["ignore"], "", 2⟩], ⟨"f"⟩, "b"⟩ =
      .ok (render_test_cases trivialRender [(⟨["a"], none, none⟩, spanCallSite)]
        ⟨[⟨["ignore"], "", 2⟩], ⟨"f"⟩, "b"⟩) ∧
    moduleTests (test_case trivialParsers trivialRender "a"
        ⟨[⟨["ignore"], "", 2⟩], ⟨"f"⟩, "b"⟩) =
      [trivialRender ⟨["a"], none, none⟩ ⟨[⟨["ignore"], "", 2⟩], ⟨"f"⟩, "b"⟩ spanCallSite] :=
  single_case_deterministic trivialParsers trivialRender "a"
    ⟨[⟨["ignore"], "", 2⟩], ⟨"f"⟩, "b"⟩ ⟨["a"], none, none⟩ rfl (by decide)
